import Mathlib

/-!
Shallow embedding of the load-balancing core of
`src/projects/reverse-proxy/main.go` (package `main` of the reverse-proxy
project), together with proofs of the specified properties.

Modelling conventions:
* Go `int` / `int64` counters and weights become `Int` (overflow of these
  counters is unreachable in practice and not modelled).
* The two cursors `roundRobinIndex` and `weightedIndex` are modelled as
  `Nat`: in the Go code they start at `0` and are only ever assigned
  `x + 1` (round robin) or `(x + 1) % totalWeight` (weighted round robin,
  where Go's truncated `%` on a non-negative dividend yields a non-negative
  result equal to `(x + 1) % |totalWeight|`), so every reachable value is
  non-negative.
* `time.Time` becomes a `Nat` timestamp supplied by the caller (`now`).
* `rand.Intn(len(backends))` is modelled by an oracle parameter `rnd : Nat`
  reduced modulo the length, standing for the value drawn by the PRNG.
* A Go client-IP string becomes its byte sequence `List Nat`
  (`[]byte(clientIP)` in the source).
* A `*Backend` result that can be `nil` becomes `Option Backend`.
-/

/-- Go's `int(^uint(0) >> 1)`: the maximum 64-bit signed integer, used as
the sentinel in `leastConnectionsSelect`. -/
def maxInt : Int := 2 ^ 63 - 1

/-- The `Backend` struct of the source (mutex dropped; `time.Time` as
`Nat`). -/
structure Backend where
  URL : String
  Weight : Int
  ActiveRequests : Int
  TotalRequests : Int
  LastRequestTime : Nat
  Healthy : Bool
deriving DecidableEq

/-- The `LoadBalancingStrategy` enum of the source. -/
inductive LoadBalancingStrategy where
  | RoundRobin
  | Random
  | WeightedRoundRobin
  | LeastConnections
  | IPHash
deriving DecidableEq

/-- The `LoadBalancer` struct of the source (mutex dropped). -/
structure LoadBalancer where
  backends : List Backend
  strategy : LoadBalancingStrategy
  roundRobinIndex : Nat
  weightedIndex : Nat
deriving DecidableEq

/-- `NewLoadBalancer`: empty backend list, cursors at their zero values. -/
def NewLoadBalancer (strategy : LoadBalancingStrategy) : LoadBalancer :=
  { backends := [], strategy := strategy, roundRobinIndex := 0, weightedIndex := 0 }

/-- `AddBackend`: appends a backend with the given URL and weight,
`Healthy: true`, every other field at its Go zero value. -/
def AddBackend (lb : LoadBalancer) (url : String) (weight : Int) : LoadBalancer :=
  { lb with
    backends := lb.backends ++
      [{ URL := url, Weight := weight, ActiveRequests := 0, TotalRequests := 0,
         LastRequestTime := 0, Healthy := true }] }

/-- `getHealthyBackends`: the healthy sublist, in insertion order. -/
def getHealthyBackends (lb : LoadBalancer) : List Backend :=
  lb.backends.filter (fun b => b.Healthy)

/-- `roundRobinSelect`: index `roundRobinIndex % len(backends)`, then the
cursor is incremented.  Returns the selected backend and the updated
balancer state. -/
def roundRobinSelect (lb : LoadBalancer) (backends : List Backend) :
    Option Backend × LoadBalancer :=
  if backends.length = 0 then (none, lb)
  else (backends[lb.roundRobinIndex % backends.length]?,
        { lb with roundRobinIndex := lb.roundRobinIndex + 1 })

/-- `randomSelect`: `backends[rand.Intn(len(backends))]`; the PRNG draw is
the oracle `rnd`, reduced into range. -/
def randomSelect (lb : LoadBalancer) (backends : List Backend) (rnd : Nat) :
    Option Backend × LoadBalancer :=
  if backends.length = 0 then (none, lb)
  else (backends[rnd % backends.length]?, lb)

/-- The weight-accumulating walk inside `weightedRoundRobinSelect`:
`currentWeight += backend.Weight; if weightedIndex < currentWeight return
backend`.  `none` means the loop fell through to the `backends[0]`
fallback. -/
def wrrWalk : List Backend → Int → Int → Option Backend
  | [], _, _ => none
  | b :: rest, weightedIndex, currentWeight =>
    if weightedIndex < currentWeight + b.Weight then some b
    else wrrWalk rest weightedIndex (currentWeight + b.Weight)

/-- `weightedRoundRobinSelect`: total weight; on zero fall back to
`roundRobinSelect`; otherwise advance `weightedIndex` to
`(weightedIndex + 1) % totalWeight` (Go truncated `%` on the non-negative
cursor, hence `% totalWeight.natAbs` over `Nat`) and walk; `backends[0]`
is the final fallback. -/
def weightedRoundRobinSelect (lb : LoadBalancer) (backends : List Backend) :
    Option Backend × LoadBalancer :=
  if backends.length = 0 then (none, lb)
  else
    let totalWeight := (backends.map (fun b => b.Weight)).sum
    if totalWeight = 0 then roundRobinSelect lb backends
    else
      let wi := (lb.weightedIndex + 1) % totalWeight.natAbs
      let lb' := { lb with weightedIndex := wi }
      match wrrWalk backends (wi : Int) 0 with
      | some b => (some b, lb')
      | none => (backends[0]?, lb')

/-- The scanning loop inside `leastConnectionsSelect`: keeps the current
minimum and the currently selected backend, replacing them whenever a
backend has strictly fewer active requests. -/
def leastConnLoop : List Backend → Int → Option Backend → Option Backend
  | [], _, selected => selected
  | b :: rest, minConnections, selected =>
    if b.ActiveRequests < minConnections then
      leastConnLoop rest b.ActiveRequests (some b)
    else leastConnLoop rest minConnections selected

/-- `leastConnectionsSelect`: scan starting from `minConnections = maxInt`,
`selected = nil`. -/
def leastConnectionsSelect (backends : List Backend) : Option Backend :=
  if backends.length = 0 then none
  else leastConnLoop backends maxInt none

/-- FNV-1a 32-bit hash of a byte sequence, as `fnv.New32a` computes it:
offset basis `2166136261`, per byte `hash = (hash XOR byte) * 16777619`
modulo `2^32`. -/
def fnv32a (clientIP : List Nat) : Nat :=
  clientIP.foldl (fun h b => ((h ^^^ b) * 16777619) % 4294967296) 2166136261

/-- `ipHashSelect`: `backends[int(hash) % len(backends)]` with the FNV-1a
hash of the client identity (the hash is non-negative, so Go's `%` is
`Nat.mod`). -/
def ipHashSelect (backends : List Backend) (clientIP : List Nat) : Option Backend :=
  if backends.length = 0 then none
  else backends[fnv32a clientIP % backends.length]?

/-- `GetBackend`: compute the healthy subset; if it is empty return `nil`
with the state untouched, otherwise dispatch on the strategy. -/
def GetBackend (lb : LoadBalancer) (clientIP : List Nat) (rnd : Nat) :
    Option Backend × LoadBalancer :=
  let healthyBackends := getHealthyBackends lb
  if healthyBackends.length = 0 then (none, lb)
  else
    match lb.strategy with
    | .RoundRobin => roundRobinSelect lb healthyBackends
    | .Random => randomSelect lb healthyBackends rnd
    | .WeightedRoundRobin => weightedRoundRobinSelect lb healthyBackends
    | .LeastConnections => (leastConnectionsSelect healthyBackends, lb)
    | .IPHash => (ipHashSelect healthyBackends clientIP, lb)

/-- `IncrementConnections`: bump both counters, stamp the time. -/
def IncrementConnections (b : Backend) (now : Nat) : Backend :=
  { b with ActiveRequests := b.ActiveRequests + 1,
           TotalRequests := b.TotalRequests + 1,
           LastRequestTime := now }

/-- `DecrementConnections`: decrement `ActiveRequests` only when it is
positive, otherwise a no-op. -/
def DecrementConnections (b : Backend) : Backend :=
  if b.ActiveRequests > 0 then { b with ActiveRequests := b.ActiveRequests - 1 }
  else b

/-- The body of `proxy.ErrorHandler` in `proxyHandler`: the only place in
the program that writes the `Healthy` flag after construction, and it only
writes `false`. -/
def MarkUnhealthy (b : Backend) : Backend :=
  { b with Healthy := false }

/-- Pointwise update of the backend at position `i` (the Go code mutates
the shared `*Backend` in place; here the registry list is rebuilt). -/
def updateAt : List Backend → Nat → (Backend → Backend) → List Backend
  | [], _, _ => []
  | b :: rest, 0, f => f b :: rest
  | b :: rest, i + 1, f => b :: updateAt rest i f

/-- Every state-changing operation the program performs on the load
balancer after construction: registering a backend, a selection call, the
router's connection bracketing on backend `i`, and the proxy error handler
demoting backend `i`. -/
inductive SysOp where
  | add (url : String) (weight : Int)
  | select (clientIP : List Nat) (rnd : Nat)
  | inc (i : Nat) (now : Nat)
  | dec (i : Nat)
  | fail (i : Nat)

/-- One system step. -/
def sysStep (lb : LoadBalancer) : SysOp → LoadBalancer
  | .add url w => AddBackend lb url w
  | .select clientIP rnd => (GetBackend lb clientIP rnd).2
  | .inc i now => { lb with backends := updateAt lb.backends i (fun b => IncrementConnections b now) }
  | .dec i => { lb with backends := updateAt lb.backends i DecrementConnections }
  | .fail i => { lb with backends := updateAt lb.backends i MarkUnhealthy }

/-- Run a sequence of system operations. -/
def sysRun (lb : LoadBalancer) (ops : List SysOp) : LoadBalancer :=
  ops.foldl sysStep lb

/-- An interleaving step on a single backend's counters: an
`IncrementConnections` (with its timestamp) or a `DecrementConnections`. -/
inductive ConnOp where
  | inc (now : Nat)
  | dec

/-- Apply one connection-counter operation. -/
def connStep (b : Backend) : ConnOp → Backend
  | .inc now => IncrementConnections b now
  | .dec => DecrementConnections b

/-- Apply an arbitrary interleaving of increments and decrements. -/
def applyConnOps (b : Backend) (ops : List ConnOp) : Backend :=
  ops.foldl connStep b

/-- Sum of the weights of the first `i` backends. -/
def weightUpTo (bs : List Backend) (i : Nat) : Int :=
  ((bs.take i).map (fun b => b.Weight)).sum

/-- The `totalWeight` computed by `weightedRoundRobinSelect`. -/
def totalWeightOf (bs : List Backend) : Int :=
  (bs.map (fun b => b.Weight)).sum

/-- State after `n` consecutive `GetBackend` calls (fixed client identity
and PRNG oracle). -/
def stepN (lb : LoadBalancer) (clientIP : List Nat) (rnd : Nat) : Nat → LoadBalancer
  | 0 => lb
  | n + 1 => (GetBackend (stepN lb clientIP rnd n) clientIP rnd).2

/-- The backend returned by the `t`-th call (0-indexed) in a run of
consecutive `GetBackend` calls. -/
def selAt (lb : LoadBalancer) (clientIP : List Nat) (rnd : Nat) (t : Nat) :
    Option Backend :=
  (GetBackend (stepN lb clientIP rnd t) clientIP rnd).1

/-- Concrete backend used by witnesses. -/
def bWit : Backend :=
  { URL := "http://b1:8080", Weight := 1, ActiveRequests := 1, TotalRequests := 4,
    LastRequestTime := 0, Healthy := true }

/-- Concrete zero-weight backend used by witnesses. -/
def bZero : Backend :=
  { URL := "http://b2:8080", Weight := 0, ActiveRequests := 0, TotalRequests := 0,
    LastRequestTime := 0, Healthy := true }

/-- Concrete negative-weight backend used by witnesses. -/
def bNeg : Backend :=
  { URL := "http://b3:8080", Weight := -3, ActiveRequests := 0, TotalRequests := 0,
    LastRequestTime := 0, Healthy := true }

/-- Witness balancer whose only backend has been marked unhealthy. -/
def lbUnhealthy : LoadBalancer :=
  { backends := [MarkUnhealthy bWit], strategy := .RoundRobin,
    roundRobinIndex := 0, weightedIndex := 0 }

/-- Witness balancer with one healthy backend, least-connections. -/
def lbOne : LoadBalancer :=
  { backends := [bWit], strategy := .LeastConnections,
    roundRobinIndex := 0, weightedIndex := 0 }

/-- Witness balancer with three healthy backends, IP hash. -/
def lbHashPool : LoadBalancer :=
  { backends := [bWit, bZero, bNeg], strategy := .IPHash,
    roundRobinIndex := 0, weightedIndex := 0 }

/-- Witness balancer with distinct connection loads, least-connections. -/
def lbLC : LoadBalancer :=
  { backends := [{ bWit with ActiveRequests := 5 }, { bZero with ActiveRequests := 2 },
      { bNeg with ActiveRequests := 2 }], strategy := .LeastConnections,
    roundRobinIndex := 0, weightedIndex := 0 }

/-- Witness balancer whose healthy backends all have weight zero. -/
def lbWZero : LoadBalancer :=
  { backends := [bZero, { bZero with URL := "http://b4:8080" }],
    strategy := .WeightedRoundRobin, roundRobinIndex := 3, weightedIndex := 0 }

/-- Witness balancer with weights 1, 0, 2 (positive total). -/
def lbWPos : LoadBalancer :=
  { backends := [bWit, bZero, { bWit with URL := "http://b5:8080", Weight := 2 }],
    strategy := .WeightedRoundRobin, roundRobinIndex := 0, weightedIndex := 0 }

/-- Witness balancer with one healthy and one unhealthy backend. -/
def lbMix : LoadBalancer :=
  { backends := [bWit, MarkUnhealthy bZero], strategy := .RoundRobin,
    roundRobinIndex := 0, weightedIndex := 0 }

/-- The backend that `AddBackend` creates in the C8 witness. -/
def bFresh : Backend :=
  { URL := "http://b9:8080", Weight := 2, ActiveRequests := 0, TotalRequests := 0,
    LastRequestTime := 0, Healthy := true }

/-- Witness balancer with three distinct healthy backends, round robin,
cursor already advanced to 5. -/
def lb3 : LoadBalancer :=
  { backends := [bWit, bZero, bNeg], strategy := .RoundRobin,
    roundRobinIndex := 5, weightedIndex := 0 }

/-- Weight-3 backend for the C1 witness. -/
def bW3 : Backend :=
  { URL := "http://b6:8080", Weight := 3, ActiveRequests := 0, TotalRequests := 0,
    LastRequestTime := 0, Healthy := true }

/-- Weight-2 backend for the C1 witness. -/
def bW2 : Backend :=
  { URL := "http://b7:8080", Weight := 2, ActiveRequests := 0, TotalRequests := 0,
    LastRequestTime := 0, Healthy := true }

/-- Witness balancer with weights 1, 3, 2 under weighted round robin and a
nonzero starting cursor. -/
def lbW132 : LoadBalancer :=
  { backends := [bWit, bW3, bW2], strategy := .WeightedRoundRobin,
    roundRobinIndex := 0, weightedIndex := 4 }

/-! ### Basic facts about the healthy subset and selector results -/

lemma mem_getHealthyBackends {lb : LoadBalancer} {b : Backend}
    (h : b ∈ getHealthyBackends lb) : b ∈ lb.backends ∧ b.Healthy = true := by
  have := List.mem_filter.mp h
  exact ⟨this.1, by simpa using this.2⟩

lemma getElem?_mem {bs : List Backend} {i : Nat} {b : Backend}
    (h : bs[i]? = some b) : b ∈ bs := by
  obtain ⟨hlt, rfl⟩ := List.getElem?_eq_some.mp h
  exact List.getElem_mem hlt

lemma roundRobinSelect_spec {lb : LoadBalancer} {bs : List Backend}
    (h : bs.length ≠ 0) :
    roundRobinSelect lb bs =
      (bs[lb.roundRobinIndex % bs.length]?,
       { lb with roundRobinIndex := lb.roundRobinIndex + 1 }) := by
  simp [roundRobinSelect, h]

lemma roundRobinSelect_fst_some {lb : LoadBalancer} {bs : List Backend}
    (h : bs.length ≠ 0) :
    ∃ b, (roundRobinSelect lb bs).1 = some b ∧ b ∈ bs := by
  have hlt : lb.roundRobinIndex % bs.length < bs.length :=
    Nat.mod_lt _ (Nat.pos_of_ne_zero h)
  refine ⟨bs[lb.roundRobinIndex % bs.length], ?_, List.getElem_mem hlt⟩
  rw [roundRobinSelect_spec h]
  exact List.getElem?_eq_getElem hlt

lemma randomSelect_fst_some {lb : LoadBalancer} {bs : List Backend} {rnd : Nat}
    (h : bs.length ≠ 0) :
    ∃ b, (randomSelect lb bs rnd).1 = some b ∧ b ∈ bs := by
  have hlt : rnd % bs.length < bs.length := Nat.mod_lt _ (Nat.pos_of_ne_zero h)
  refine ⟨bs[rnd % bs.length], ?_, List.getElem_mem hlt⟩
  simp [randomSelect, h, List.getElem?_eq_getElem hlt]

lemma ipHashSelect_fst_some {bs : List Backend} {clientIP : List Nat}
    (h : bs.length ≠ 0) :
    ∃ b, ipHashSelect bs clientIP = some b ∧ b ∈ bs := by
  have hlt : fnv32a clientIP % bs.length < bs.length := Nat.mod_lt _ (Nat.pos_of_ne_zero h)
  refine ⟨bs[fnv32a clientIP % bs.length], ?_, List.getElem_mem hlt⟩
  simp [ipHashSelect, h, List.getElem?_eq_getElem hlt]

/-! ### The weighted walk -/

lemma weightUpTo_zero (bs : List Backend) : weightUpTo bs 0 = 0 := rfl

lemma weightUpTo_cons_succ (b0 : Backend) (rest : List Backend) (i : Nat) :
    weightUpTo (b0 :: rest) (i + 1) = b0.Weight + weightUpTo rest i := by
  simp [weightUpTo]

lemma weightUpTo_length (bs : List Backend) :
    weightUpTo bs bs.length = (bs.map (fun b => b.Weight)).sum := by
  simp [weightUpTo]

lemma weightUpTo_succ_getElem (bs : List Backend) (i : Nat) (hi : i < bs.length) :
    weightUpTo bs (i + 1) = weightUpTo bs i + bs[i].Weight := by
  unfold weightUpTo
  rw [List.take_succ, List.getElem?_eq_getElem hi, List.map_append, List.sum_append]
  simp

lemma weightUpTo_nonneg {bs : List Backend} (hw : ∀ b ∈ bs, 0 ≤ b.Weight)
    (i : Nat) : 0 ≤ weightUpTo bs i := by
  apply List.sum_nonneg
  intro x hx
  obtain ⟨b, hb, rfl⟩ := List.mem_map.mp hx
  exact hw b (List.mem_of_mem_take hb)

lemma wrrWalk_mem {bs : List Backend} {j c : Int} {b : Backend}
    (h : wrrWalk bs j c = some b) : b ∈ bs := by
  induction bs generalizing c with
  | nil => simp [wrrWalk] at h
  | cons b0 rest ih =>
    rw [wrrWalk] at h
    split at h
    · cases h; exact List.mem_cons_self _ _
    · exact List.mem_cons_of_mem _ (ih h)

lemma wrrWalk_isSome {bs : List Backend} {j c : Int}
    (h1 : c ≤ j) (h2 : j < c + (bs.map (fun b => b.Weight)).sum) :
    ∃ b, wrrWalk bs j c = some b := by
  induction bs generalizing c with
  | nil => simp at h2; omega
  | cons b0 rest ih =>
    rw [wrrWalk]
    split
    · exact ⟨b0, rfl⟩
    · rename_i hnot
      apply ih (c := c + b0.Weight) (by omega)
      simp only [List.map_cons, List.sum_cons] at h2
      omega

/-- Soundness of the walk: a returned backend sits at an index whose
weight-prefix interval contains the cursor. -/
lemma wrrWalk_interval {bs : List Backend} {c j : Int} {b : Backend}
    (h1 : c ≤ j) (h : wrrWalk bs j c = some b) :
    ∃ i, ∃ hi : i < bs.length, bs[i] = b ∧
      c + weightUpTo bs i ≤ j ∧ j < c + weightUpTo bs (i + 1) := by
  induction bs generalizing c with
  | nil => simp [wrrWalk] at h
  | cons b0 rest ih =>
    rw [wrrWalk] at h
    split at h
    · rename_i hlt
      cases h
      refine ⟨0, by simp, rfl, ?_, ?_⟩
      · simpa [weightUpTo_zero] using h1
      · rw [weightUpTo_cons_succ, weightUpTo_zero]
        omega
    · rename_i hnot
      obtain ⟨i, hi, hb, hlo, hhi⟩ := ih (c := c + b0.Weight) (by omega) h
      refine ⟨i + 1, by simpa using Nat.succ_lt_succ hi, by simpa using hb, ?_, ?_⟩
      · rw [weightUpTo_cons_succ]; omega
      · rw [weightUpTo_cons_succ]; omega

/-- Completeness of the walk: if the cursor lies in the weight-prefix
interval of index `i` then the walk returns the backend at `i`
(non-negative weights). -/
lemma wrrWalk_of_interval {bs : List Backend} {c j : Int} {i : Nat}
    (hi : i < bs.length) (hw : ∀ b ∈ bs, 0 ≤ b.Weight)
    (hlo : c + weightUpTo bs i ≤ j) (hhi : j < c + weightUpTo bs (i + 1)) :
    wrrWalk bs j c = some bs[i] := by
  induction bs generalizing c i with
  | nil => simp at hi
  | cons b0 rest ih =>
    cases i with
    | zero =>
      rw [weightUpTo_zero] at hlo
      rw [weightUpTo_cons_succ, weightUpTo_zero] at hhi
      rw [wrrWalk, if_pos (by omega)]
      simp
    | succ i' =>
      have hi' : i' < rest.length := by simpa using Nat.lt_of_succ_lt_succ hi
      have hw' : ∀ b ∈ rest, 0 ≤ b.Weight := fun b hb => hw b (List.mem_cons_of_mem _ hb)
      have hpre : 0 ≤ weightUpTo rest i' := weightUpTo_nonneg hw' i'
      rw [weightUpTo_cons_succ] at hlo hhi
      rw [wrrWalk, if_neg (by omega)]
      have := ih hi' hw' (c := c + b0.Weight) (by omega) (by omega)
      simpa using this

/-! ### The least-connections scan -/

/-- Invariant of the scan once a champion is installed (and the running
minimum equals the champion's count, as the loop maintains): the result is
the champion itself when nothing in `bs` strictly beats it, else the
earliest strict minimum of `bs`. -/
lemma leastConnLoop_min (bs : List Backend) (s : Backend) :
    ∃ r, leastConnLoop bs s.ActiveRequests (some s) = some r ∧
      r.ActiveRequests ≤ s.ActiveRequests ∧
      (∀ b ∈ bs, r.ActiveRequests ≤ b.ActiveRequests) ∧
      (r = s ∨ ∃ i, ∃ hi : i < bs.length, bs[i] = r ∧
        r.ActiveRequests < s.ActiveRequests ∧
        ∀ j, ∀ hj : j < bs.length, j < i →
          r.ActiveRequests < bs[j].ActiveRequests) := by
  induction bs generalizing s with
  | nil => exact ⟨s, rfl, le_refl _, by simp, Or.inl rfl⟩
  | cons b0 rest ih =>
    simp only [leastConnLoop]
    split
    · rename_i hlt
      obtain ⟨r, hr, hle, hall, hcase⟩ := ih b0
      refine ⟨r, hr, by omega, ?_, ?_⟩
      · intro b hb
        rcases List.mem_cons.mp hb with rfl | hb
        · omega
        · exact hall b hb
      · right
        rcases hcase with rfl | ⟨i, hi, hbi, hlt2, hjs⟩
        · exact ⟨0, by simp, rfl, hlt, fun j hj hji => absurd hji (Nat.not_lt_zero j)⟩
        · refine ⟨i + 1, by simpa using Nat.succ_lt_succ hi, by simpa using hbi,
            by omega, ?_⟩
          intro j hj hji
          cases j with
          | zero => simpa using hlt2
          | succ j' =>
            have := hjs j' (by simpa using Nat.lt_of_succ_lt_succ hj) (by omega)
            simpa using this
    · rename_i hge
      obtain ⟨r, hr, hle, hall, hcase⟩ := ih s
      refine ⟨r, hr, hle, ?_, ?_⟩
      · intro b hb
        rcases List.mem_cons.mp hb with rfl | hb
        · omega
        · exact hall b hb
      · rcases hcase with rfl | ⟨i, hi, hbi, hlt2, hjs⟩
        · exact Or.inl rfl
        · right
          refine ⟨i + 1, by simpa using Nat.succ_lt_succ hi, by simpa using hbi,
            hlt2, ?_⟩
          intro j hj hji
          cases j with
          | zero => simp only [List.getElem_cons_zero]; omega
          | succ j' =>
            have := hjs j' (by simpa using Nat.lt_of_succ_lt_succ hj) (by omega)
            simpa using this

/-- `leastConnectionsSelect` on a non-empty list whose counts are below the
sentinel returns the earliest backend attaining the minimum count. -/
lemma leastConnectionsSelect_spec {bs : List Backend} (hne : bs ≠ [])
    (hcap : ∀ b ∈ bs, b.ActiveRequests < maxInt) :
    ∃ r, leastConnectionsSelect bs = some r ∧
      ∃ i, ∃ hi : i < bs.length, bs[i] = r ∧
        (∀ b ∈ bs, r.ActiveRequests ≤ b.ActiveRequests) ∧
        ∀ j, ∀ hj : j < bs.length, j < i →
          r.ActiveRequests < bs[j].ActiveRequests := by
  match bs, hne with
  | b0 :: rest, _ =>
    have h0 : b0.ActiveRequests < maxInt := hcap b0 (List.mem_cons_self _ _)
    unfold leastConnectionsSelect
    rw [if_neg (by simp)]
    simp only [leastConnLoop, if_pos h0]
    obtain ⟨r, hr, hle, hall, hcase⟩ := leastConnLoop_min rest b0
    refine ⟨r, hr, ?_⟩
    rcases hcase with rfl | ⟨i, hi, hbi, hlt2, hjs⟩
    · refine ⟨0, by simp, rfl, ?_, fun j hj hji => absurd hji (Nat.not_lt_zero j)⟩
      intro b hb
      rcases List.mem_cons.mp hb with rfl | hb
      · exact le_refl _
      · exact hall b hb
    · refine ⟨i + 1, by simpa using Nat.succ_lt_succ hi, by simpa using hbi, ?_, ?_⟩
      · intro b hb
        rcases List.mem_cons.mp hb with rfl | hb
        · omega
        · exact hall b hb
      · intro j hj hji
        cases j with
        | zero => simpa using hlt2
        | succ j' =>
          have := hjs j' (by simpa using Nat.lt_of_succ_lt_succ hj)
            (by omega)
          simpa using this

lemma leastConnLoop_mem {bs : List Backend} {m : Int} {sel : Option Backend}
    {r : Backend} (h : leastConnLoop bs m sel = some r) :
    r ∈ bs ∨ sel = some r := by
  induction bs generalizing m sel with
  | nil => exact Or.inr h
  | cons b0 rest ih =>
    simp only [leastConnLoop] at h
    split at h
    · rcases ih h with hmem | hsel
      · exact Or.inl (List.mem_cons_of_mem _ hmem)
      · cases hsel; exact Or.inl (List.mem_cons_self _ _)
    · rcases ih h with hmem | hsel
      · exact Or.inl (List.mem_cons_of_mem _ hmem)
      · exact Or.inr hsel


/-! ### Structure of `weightedRoundRobinSelect` -/

/-- Restatement of the definition through `totalWeightOf`. -/
lemma weightedRoundRobinSelect_def (lb : LoadBalancer) (bs : List Backend) :
    weightedRoundRobinSelect lb bs =
      if bs.length = 0 then (none, lb)
      else if totalWeightOf bs = 0 then roundRobinSelect lb bs
      else
        match wrrWalk bs (((lb.weightedIndex + 1) % (totalWeightOf bs).natAbs : Nat) : Int) 0 with
        | some b => (some b,
            { lb with weightedIndex := (lb.weightedIndex + 1) % (totalWeightOf bs).natAbs })
        | none => (bs[0]?,
            { lb with weightedIndex := (lb.weightedIndex + 1) % (totalWeightOf bs).natAbs }) :=
  rfl

lemma weightedRoundRobinSelect_total_zero {lb : LoadBalancer} {bs : List Backend}
    (hne : ¬ bs.length = 0) (h0 : totalWeightOf bs = 0) :
    weightedRoundRobinSelect lb bs = roundRobinSelect lb bs := by
  rw [weightedRoundRobinSelect_def, if_neg hne, if_pos h0]

/-- With a positive total weight the cursor lands in `[0, totalWeight)`, so
the walk always succeeds and the `backends[0]` fallback is dead. -/
lemma weightedRoundRobinSelect_pos_eq {lb : LoadBalancer} {bs : List Backend}
    (hne : ¬ bs.length = 0) (hpos : 0 < totalWeightOf bs) :
    weightedRoundRobinSelect lb bs =
      (wrrWalk bs (((lb.weightedIndex + 1) % (totalWeightOf bs).natAbs : Nat) : Int) 0,
       { lb with weightedIndex := (lb.weightedIndex + 1) % (totalWeightOf bs).natAbs }) := by
  have h0 : ¬ totalWeightOf bs = 0 := by omega
  have habs : (0 : Nat) < (totalWeightOf bs).natAbs := by omega
  have hlt : (lb.weightedIndex + 1) % (totalWeightOf bs).natAbs
      < (totalWeightOf bs).natAbs := Nat.mod_lt _ habs
  have hcast : (((totalWeightOf bs).natAbs : Nat) : Int) = totalWeightOf bs :=
    Int.natAbs_of_nonneg (le_of_lt hpos)
  have hj : (((lb.weightedIndex + 1) % (totalWeightOf bs).natAbs : Nat) : Int)
      < 0 + (bs.map (fun b : Backend => b.Weight)).sum := by
    rw [zero_add]
    calc (((lb.weightedIndex + 1) % (totalWeightOf bs).natAbs : Nat) : Int)
        < (((totalWeightOf bs).natAbs : Nat) : Int) := by exact_mod_cast hlt
      _ = totalWeightOf bs := hcast
  obtain ⟨b, hb⟩ := wrrWalk_isSome (by positivity) hj
  rw [weightedRoundRobinSelect_def, if_neg hne, if_neg h0, hb]

lemma weightedRoundRobinSelect_fst_some {lb : LoadBalancer} {bs : List Backend}
    (hne : ¬ bs.length = 0) :
    ∃ b, (weightedRoundRobinSelect lb bs).1 = some b ∧ b ∈ bs := by
  by_cases h0 : totalWeightOf bs = 0
  · obtain ⟨b, hb, hmem⟩ := @roundRobinSelect_fst_some lb bs hne
    exact ⟨b, by rw [weightedRoundRobinSelect_total_zero hne h0]; exact hb, hmem⟩
  · rw [weightedRoundRobinSelect_def, if_neg hne, if_neg h0]
    cases hw : wrrWalk bs
        (((lb.weightedIndex + 1) % (totalWeightOf bs).natAbs : Nat) : Int) 0 with
    | none =>
      have hlt : 0 < bs.length := Nat.pos_of_ne_zero hne
      exact ⟨bs[0], by simp [List.getElem?_eq_getElem hlt], List.getElem_mem hlt⟩
    | some b =>
      exact ⟨b, by simp, wrrWalk_mem hw⟩

/-! ### Selector results are members; `GetBackend` structure -/

lemma roundRobinSelect_fst_mem {lb : LoadBalancer} {bs : List Backend}
    {b : Backend} (h : (roundRobinSelect lb bs).1 = some b) : b ∈ bs := by
  unfold roundRobinSelect at h
  split at h
  · simp at h
  · exact getElem?_mem (by simpa using h)

lemma randomSelect_fst_mem {lb : LoadBalancer} {bs : List Backend} {rnd : Nat}
    {b : Backend} (h : (randomSelect lb bs rnd).1 = some b) : b ∈ bs := by
  unfold randomSelect at h
  split at h
  · simp at h
  · exact getElem?_mem (by simpa using h)

lemma weightedRoundRobinSelect_fst_mem {lb : LoadBalancer} {bs : List Backend}
    {b : Backend} (h : (weightedRoundRobinSelect lb bs).1 = some b) : b ∈ bs := by
  rw [weightedRoundRobinSelect_def] at h
  split at h
  · simp at h
  · split at h
    · exact roundRobinSelect_fst_mem h
    · split at h
      · rename_i b' hw
        simp only at h
        cases h
        exact wrrWalk_mem hw
      · exact getElem?_mem (by simpa using h)

lemma leastConnectionsSelect_mem {bs : List Backend} {r : Backend}
    (h : leastConnectionsSelect bs = some r) : r ∈ bs := by
  unfold leastConnectionsSelect at h
  split at h
  · simp at h
  · rcases leastConnLoop_mem h with hm | hs
    · exact hm
    · simp at hs

lemma ipHashSelect_mem {bs : List Backend} {clientIP : List Nat} {b : Backend}
    (h : ipHashSelect bs clientIP = some b) : b ∈ bs := by
  unfold ipHashSelect at h
  split at h
  · simp at h
  · exact getElem?_mem h

lemma roundRobinSelect_snd_fields (lb : LoadBalancer) (bs : List Backend) :
    (roundRobinSelect lb bs).2.backends = lb.backends ∧
    (roundRobinSelect lb bs).2.strategy = lb.strategy := by
  unfold roundRobinSelect
  split <;> simp

lemma weightedRoundRobinSelect_snd_fields (lb : LoadBalancer) (bs : List Backend) :
    (weightedRoundRobinSelect lb bs).2.backends = lb.backends ∧
    (weightedRoundRobinSelect lb bs).2.strategy = lb.strategy := by
  rw [weightedRoundRobinSelect_def]
  split
  · simp
  · split
    · exact roundRobinSelect_snd_fields lb bs
    · split <;> simp

/-- A `GetBackend` call never touches the backend list or the strategy:
only the cursors can change. -/
lemma GetBackend_snd_fields (lb : LoadBalancer) (clientIP : List Nat) (rnd : Nat) :
    (GetBackend lb clientIP rnd).2.backends = lb.backends ∧
    (GetBackend lb clientIP rnd).2.strategy = lb.strategy := by
  cases hs : lb.strategy with
  | RoundRobin =>
    simp only [GetBackend, hs]
    split
    · simp [hs]
    · rw [← hs]; exact roundRobinSelect_snd_fields lb _
  | Random =>
    simp only [GetBackend, hs]
    split
    · simp [hs]
    · unfold randomSelect; split <;> simp [hs]
  | WeightedRoundRobin =>
    simp only [GetBackend, hs]
    split
    · simp [hs]
    · rw [← hs]; exact weightedRoundRobinSelect_snd_fields lb _
  | LeastConnections =>
    simp only [GetBackend, hs]
    split <;> simp [hs]
  | IPHash =>
    simp only [GetBackend, hs]
    split <;> simp [hs]

/-- Whatever the strategy, a backend returned by `GetBackend` is a member
of the healthy subset. -/
lemma GetBackend_fst_mem {lb : LoadBalancer} {clientIP : List Nat} {rnd : Nat}
    {b : Backend} (h : (GetBackend lb clientIP rnd).1 = some b) :
    b ∈ getHealthyBackends lb := by
  cases hs : lb.strategy with
  | RoundRobin =>
    simp only [GetBackend, hs] at h
    split at h
    · simp at h
    · exact roundRobinSelect_fst_mem h
  | Random =>
    simp only [GetBackend, hs] at h
    split at h
    · simp at h
    · exact randomSelect_fst_mem h
  | WeightedRoundRobin =>
    simp only [GetBackend, hs] at h
    split at h
    · simp at h
    · exact weightedRoundRobinSelect_fst_mem h
  | LeastConnections =>
    simp only [GetBackend, hs] at h
    split at h
    · simp at h
    · exact leastConnectionsSelect_mem (by simpa using h)
  | IPHash =>
    simp only [GetBackend, hs] at h
    split at h
    · simp at h
    · exact ipHashSelect_mem (by simpa using h)

/-! ### Connection-counter facts -/

lemma connStep_nonneg {b : Backend} (h : 0 ≤ b.ActiveRequests) (op : ConnOp) :
    0 ≤ (connStep b op).ActiveRequests := by
  cases op with
  | inc now => simp only [connStep, IncrementConnections]; omega
  | dec =>
    simp only [connStep, DecrementConnections]
    split
    · rename_i hpos
      show 0 ≤ b.ActiveRequests - 1
      omega
    · exact h

lemma applyConnOps_nonneg (ops : List ConnOp) :
    ∀ b : Backend, 0 ≤ b.ActiveRequests →
      0 ≤ (applyConnOps b ops).ActiveRequests := by
  induction ops with
  | nil => intro b h; simpa [applyConnOps] using h
  | cons op rest ih =>
    intro b h
    have : applyConnOps b (op :: rest) = applyConnOps (connStep b op) rest := rfl
    rw [this]
    exact ih _ (connStep_nonneg h op)

/-! ### Claim theorems -/

/-- C6: `ActiveRequests` never goes negative: `DecrementConnections`
decrements only when the counter is positive and is a no-op otherwise, so
every interleaving of increments and decrements — in particular one with
more decrements than increments — keeps the counter non-negative. -/
theorem claimC6 (b : Backend) (ops : List ConnOp)
    (h : 0 ≤ b.ActiveRequests) :
    0 ≤ (applyConnOps b ops).ActiveRequests ∧
    (0 < b.ActiveRequests →
      (DecrementConnections b).ActiveRequests = b.ActiveRequests - 1) ∧
    (¬ 0 < b.ActiveRequests → DecrementConnections b = b) := by
  refine ⟨applyConnOps_nonneg ops b h, ?_, ?_⟩
  · intro hpos
    simp [DecrementConnections, hpos]
  · intro hpos
    simp [DecrementConnections, hpos]

/-- Witness for C6 at a concrete backend and an interleaving with more
decrements than increments. -/
theorem claimC6_witness :
    0 ≤ bWit.ActiveRequests ∧
    0 ≤ (applyConnOps bWit [ConnOp.dec, ConnOp.dec, ConnOp.inc 7, ConnOp.dec,
      ConnOp.dec]).ActiveRequests :=
  ⟨by decide, (claimC6 bWit _ (by decide)).1⟩

/-- C9: incrementing then decrementing restores `ActiveRequests`, adds one
to `TotalRequests`, stamps `LastRequestTime`, and leaves `URL`, `Weight`
and `Healthy` unchanged; `IncrementConnections` itself bumps exactly both
counters and the timestamp. -/
theorem claimC9 (b : Backend) (now : Nat) (h : 0 ≤ b.ActiveRequests) :
    DecrementConnections (IncrementConnections b now) =
      { b with TotalRequests := b.TotalRequests + 1, LastRequestTime := now } ∧
    IncrementConnections b now =
      { b with ActiveRequests := b.ActiveRequests + 1,
               TotalRequests := b.TotalRequests + 1,
               LastRequestTime := now } := by
  refine ⟨?_, rfl⟩
  obtain ⟨u, w, a, t, l, hy⟩ := b
  simp only [IncrementConnections, DecrementConnections] at h ⊢
  rw [if_pos (by simp at h ⊢; omega)]
  simp

/-- Witness for C9 at a concrete backend. -/
theorem claimC9_witness :
    DecrementConnections (IncrementConnections bWit 42) =
      { bWit with TotalRequests := bWit.TotalRequests + 1, LastRequestTime := 42 } :=
  (claimC9 bWit 42 (by decide)).1

/-- C10: on every non-empty subset and arbitrary (possibly zero or
negative) weights, `weightedRoundRobinSelect` returns an element of the
subset — never `nil`: a zero total diverts to round robin, and otherwise
the walk or the explicit `backends[0]` fallback yields a member. -/
theorem claimC10 (lb : LoadBalancer) (bs : List Backend) (hne : bs ≠ []) :
    ∃ b, (weightedRoundRobinSelect lb bs).1 = some b ∧ b ∈ bs :=
  weightedRoundRobinSelect_fst_some
    (fun h => hne (List.length_eq_zero.mp h))

/-- Witness for C10 on a subset with a zero and a negative weight (total
weight negative). -/
theorem claimC10_witness :
    [bZero, bNeg] ≠ [] ∧
    ∃ b, (weightedRoundRobinSelect (NewLoadBalancer .WeightedRoundRobin)
      [bZero, bNeg]).1 = some b ∧ b ∈ [bZero, bNeg] :=
  ⟨by decide, claimC10 _ _ (by decide)⟩

/-- C3: with an empty healthy subset `GetBackend` returns `nil` and leaves
the whole state untouched (so no selector runs); with a non-empty healthy
subset (whose counters are in machine range) it returns a member of that
subset. -/
theorem claimC3 (lb : LoadBalancer) (clientIP : List Nat) (rnd : Nat) :
    (getHealthyBackends lb = [] → GetBackend lb clientIP rnd = (none, lb)) ∧
    (getHealthyBackends lb ≠ [] →
      (∀ b ∈ getHealthyBackends lb, b.ActiveRequests < maxInt) →
      ∃ b, (GetBackend lb clientIP rnd).1 = some b ∧
        b ∈ getHealthyBackends lb) := by
  constructor
  · intro h
    simp [GetBackend, h]
  · intro hne hcap
    have hlen : ¬ (getHealthyBackends lb).length = 0 :=
      fun h => hne (List.length_eq_zero.mp h)
    cases hs : lb.strategy with
    | RoundRobin =>
      obtain ⟨b, hb, hmem⟩ := @roundRobinSelect_fst_some lb _ hlen
      refine ⟨b, ?_, hmem⟩
      simp only [GetBackend, hs]
      rw [if_neg hlen]
      exact hb
    | Random =>
      obtain ⟨b, hb, hmem⟩ := @randomSelect_fst_some lb _ rnd hlen
      refine ⟨b, ?_, hmem⟩
      simp only [GetBackend, hs]
      rw [if_neg hlen]
      exact hb
    | WeightedRoundRobin =>
      obtain ⟨b, hb, hmem⟩ := @weightedRoundRobinSelect_fst_some lb _ hlen
      refine ⟨b, ?_, hmem⟩
      simp only [GetBackend, hs]
      rw [if_neg hlen]
      exact hb
    | LeastConnections =>
      obtain ⟨r, hr, _⟩ := leastConnectionsSelect_spec hne hcap
      refine ⟨r, ?_, leastConnectionsSelect_mem hr⟩
      simp only [GetBackend, hs]
      rw [if_neg hlen]
      exact hr
    | IPHash =>
      obtain ⟨b, hb, hmem⟩ := ipHashSelect_fst_some hlen
      refine ⟨b, ?_, hmem⟩
      simp only [GetBackend, hs]
      rw [if_neg hlen]
      exact hb

/-- Witness for C3: a balancer whose only backend is unhealthy yields
`nil` with unchanged state; a healthy one yields a member. -/
theorem claimC3_witness :
    GetBackend lbUnhealthy [] 0 = (none, lbUnhealthy) ∧
    ∃ b, (GetBackend lbOne [] 0).1 = some b ∧ b ∈ getHealthyBackends lbOne :=
  ⟨(claimC3 lbUnhealthy [] 0).1 (by decide),
   (claimC3 lbOne [] 0).2 (by decide) (by decide)⟩

/-- C5: under IP Hash the selected backend is the entry at index
`fnv32a(clientIdentity) mod size` of the healthy subset, the state is
unchanged, and any two calls seeing the same healthy subset (same size and
order) and the same client identity return the same backend. -/
theorem claimC5 (lb lc : LoadBalancer) (clientIP : List Nat) (rnd rn2 : Nat)
    (hs : lb.strategy = .IPHash)
    (hne : getHealthyBackends lb ≠ []) :
    ((GetBackend lb clientIP rnd).1 =
        (getHealthyBackends lb)[fnv32a clientIP % (getHealthyBackends lb).length]? ∧
      (GetBackend lb clientIP rnd).2 = lb) ∧
    (lc.strategy = .IPHash → getHealthyBackends lc = getHealthyBackends lb →
      (GetBackend lc clientIP rn2).1 = (GetBackend lb clientIP rnd).1) := by
  have hlen : ¬ (getHealthyBackends lb).length = 0 :=
    fun h => hne (List.length_eq_zero.mp h)
  have main : ∀ ld : LoadBalancer, ld.strategy = .IPHash →
      getHealthyBackends ld = getHealthyBackends lb → ∀ r : Nat,
      (GetBackend ld clientIP r).1 =
        (getHealthyBackends lb)[fnv32a clientIP % (getHealthyBackends lb).length]? ∧
      (GetBackend ld clientIP r).2 = ld := by
    intro ld hsd heq r
    simp only [GetBackend, hsd, heq]
    rw [if_neg hlen]
    simp only [ipHashSelect]
    rw [if_neg hlen]
    exact ⟨rfl, trivial⟩
  refine ⟨main lb hs rfl rnd, ?_⟩
  intro hsc heqc
  rw [(main lc hsc heqc rn2).1, (main lb hs rfl rnd).1]

/-- Witness for C5 at a concrete three-backend pool and the identity
bytes of `"192"`. -/
theorem claimC5_witness :
    getHealthyBackends lbHashPool ≠ [] ∧
    (GetBackend lbHashPool [49, 57, 50] 0).1 =
      (getHealthyBackends lbHashPool)[fnv32a [49, 57, 50] %
        (getHealthyBackends lbHashPool).length]? :=
  ⟨by decide,
   ((claimC5 lbHashPool lbHashPool [49, 57, 50] 0 0 (by decide) (by decide)).1).1⟩

/-- C4: under Least Connections, with a non-empty healthy subset (counters
in machine range), `GetBackend` returns a backend with minimal
`ActiveRequests`, and on ties the first such backend in iteration order:
every earlier position has a strictly larger count. -/
theorem claimC4 (lb : LoadBalancer) (clientIP : List Nat) (rnd : Nat)
    (hs : lb.strategy = .LeastConnections)
    (hne : getHealthyBackends lb ≠ [])
    (hcap : ∀ b ∈ getHealthyBackends lb, b.ActiveRequests < maxInt) :
    ∃ r, (GetBackend lb clientIP rnd).1 = some r ∧
      ∃ i, ∃ hi : i < (getHealthyBackends lb).length,
        (getHealthyBackends lb)[i] = r ∧
        (∀ b ∈ getHealthyBackends lb, r.ActiveRequests ≤ b.ActiveRequests) ∧
        ∀ j, ∀ hj : j < (getHealthyBackends lb).length, j < i →
          r.ActiveRequests < (getHealthyBackends lb)[j].ActiveRequests := by
  have hlen : ¬ (getHealthyBackends lb).length = 0 :=
    fun h => hne (List.length_eq_zero.mp h)
  obtain ⟨r, hr, hrest⟩ := leastConnectionsSelect_spec hne hcap
  refine ⟨r, ?_, hrest⟩
  simp only [GetBackend, hs]
  rw [if_neg hlen]
  exact hr

/-- Witness for C4 at a pool with counts 5, 2, 2: the second backend (the
first of the two tied minima) is returned. -/
theorem claimC4_witness :
    getHealthyBackends lbLC ≠ [] ∧
    ∃ r, (GetBackend lbLC [] 0).1 = some r ∧
      ∃ i, ∃ hi : i < (getHealthyBackends lbLC).length,
        (getHealthyBackends lbLC)[i] = r ∧
        (∀ b ∈ getHealthyBackends lbLC, r.ActiveRequests ≤ b.ActiveRequests) ∧
        ∀ j, ∀ hj : j < (getHealthyBackends lbLC).length, j < i →
          r.ActiveRequests < (getHealthyBackends lbLC)[j].ActiveRequests :=
  ⟨by decide, claimC4 lbLC [] 0 (by decide) (by decide) (by decide)⟩

/-- C7: under Weighted Round Robin, a zero total weight over the healthy
subset makes the call identical to `roundRobinSelect` (the round-robin
cursor advances by one); with positive total weight a zero-weight backend
is never returned. -/
theorem claimC7 (lb : LoadBalancer) (clientIP : List Nat) (rnd : Nat)
    (hs : lb.strategy = .WeightedRoundRobin)
    (hne : getHealthyBackends lb ≠ []) :
    (totalWeightOf (getHealthyBackends lb) = 0 →
      GetBackend lb clientIP rnd = roundRobinSelect lb (getHealthyBackends lb) ∧
      (GetBackend lb clientIP rnd).2.roundRobinIndex = lb.roundRobinIndex + 1) ∧
    (0 < totalWeightOf (getHealthyBackends lb) →
      ∀ b, (GetBackend lb clientIP rnd).1 = some b → b.Weight ≠ 0) := by
  have hlen : ¬ (getHealthyBackends lb).length = 0 :=
    fun h => hne (List.length_eq_zero.mp h)
  have hdispatch : GetBackend lb clientIP rnd =
      weightedRoundRobinSelect lb (getHealthyBackends lb) := by
    simp only [GetBackend, hs]
    rw [if_neg hlen]
  constructor
  · intro h0
    rw [hdispatch, weightedRoundRobinSelect_total_zero hlen h0,
      roundRobinSelect_spec hlen]
    exact ⟨rfl, rfl⟩
  · intro hpos b hb
    rw [hdispatch, weightedRoundRobinSelect_pos_eq hlen hpos] at hb
    simp only at hb
    have hj : (0 : Int) ≤
        (((lb.weightedIndex + 1) % (totalWeightOf (getHealthyBackends lb)).natAbs : Nat) : Int) :=
      Int.ofNat_nonneg _
    obtain ⟨i, hi, hbi, hlo, hhi⟩ := wrrWalk_interval hj hb
    rw [weightUpTo_succ_getElem _ _ hi] at hhi
    have : 0 < (getHealthyBackends lb)[i].Weight := by omega
    rw [hbi] at this
    omega

/-- Witness for C7: an all-zero-weight pool behaves as round robin, and a
weights-1,0,2 pool never returns the zero-weight backend (here the first
call returns a backend of nonzero weight). -/
theorem claimC7_witness :
    (GetBackend lbWZero [] 0 = roundRobinSelect lbWZero (getHealthyBackends lbWZero) ∧
      (GetBackend lbWZero [] 0).2.roundRobinIndex = lbWZero.roundRobinIndex + 1) ∧
    ∀ b, (GetBackend lbWPos [] 0).1 = some b → b.Weight ≠ 0 :=
  ⟨(claimC7 lbWZero [] 0 (by decide) (by decide)).1 (by decide),
   (claimC7 lbWPos [] 0 (by decide) (by decide)).2 (by decide)⟩

/-! ### Health demotion is permanent -/

lemma updateAt_getElem? (bs : List Backend) (j : Nat) (f : Backend → Backend) :
    ∀ i, (updateAt bs j f)[i]? = if i = j then Option.map f bs[i]? else bs[i]? := by
  induction bs generalizing j with
  | nil => intro i; simp [updateAt]
  | cons b0 rest ih =>
    intro i
    cases j with
    | zero =>
      cases i with
      | zero => simp [updateAt]
      | succ i2 => simp [updateAt]
    | succ j2 =>
      cases i with
      | zero => simp [updateAt]
      | succ i2 => simpa [updateAt] using ih j2 i2

lemma DecrementConnections_Healthy (b : Backend) :
    (DecrementConnections b).Healthy = b.Healthy := by
  unfold DecrementConnections
  split <;> rfl

/-- No system operation resurrects an unhealthy backend: the entry at the
same registry position stays unhealthy. -/
lemma sysStep_unhealthy_persist {lb : LoadBalancer} {i : Nat} {b : Backend}
    (h : lb.backends[i]? = some b) (hb : b.Healthy = false) (op : SysOp) :
    ∃ b2, (sysStep lb op).backends[i]? = some b2 ∧ b2.Healthy = false := by
  cases op with
  | add url w =>
    refine ⟨b, ?_, hb⟩
    have hi : i < lb.backends.length := by
      rcases List.getElem?_eq_some.mp h with ⟨hlt, _⟩
      exact hlt
    show (lb.backends ++ _)[i]? = some b
    rw [List.getElem?_append, if_pos hi]
    exact h
  | select clientIP rnd =>
    refine ⟨b, ?_, hb⟩
    show (GetBackend lb clientIP rnd).2.backends[i]? = some b
    rw [(GetBackend_snd_fields lb clientIP rnd).1]
    exact h
  | inc j now =>
    by_cases hij : i = j
    · subst hij
      refine ⟨IncrementConnections b now, ?_, hb⟩
      show (updateAt lb.backends i _)[i]? = _
      rw [updateAt_getElem?, if_pos rfl, h]
      rfl
    · refine ⟨b, ?_, hb⟩
      show (updateAt lb.backends j _)[i]? = some b
      rw [updateAt_getElem?, if_neg hij]
      exact h
  | dec j =>
    by_cases hij : i = j
    · subst hij
      refine ⟨DecrementConnections b, ?_, by rw [DecrementConnections_Healthy]; exact hb⟩
      show (updateAt lb.backends i _)[i]? = _
      rw [updateAt_getElem?, if_pos rfl, h]
      rfl
    · refine ⟨b, ?_, hb⟩
      show (updateAt lb.backends j _)[i]? = some b
      rw [updateAt_getElem?, if_neg hij]
      exact h
  | fail j =>
    by_cases hij : i = j
    · subst hij
      refine ⟨MarkUnhealthy b, ?_, rfl⟩
      show (updateAt lb.backends i _)[i]? = _
      rw [updateAt_getElem?, if_pos rfl, h]
      rfl
    · refine ⟨b, ?_, hb⟩
      show (updateAt lb.backends j _)[i]? = some b
      rw [updateAt_getElem?, if_neg hij]
      exact h

lemma sysRun_unhealthy_persist (ops : List SysOp) {lb : LoadBalancer} {i : Nat}
    {b : Backend} (h : lb.backends[i]? = some b) (hb : b.Healthy = false) :
    ∃ b2, (sysRun lb ops).backends[i]? = some b2 ∧ b2.Healthy = false := by
  induction ops generalizing lb b with
  | nil => exact ⟨b, h, hb⟩
  | cons op rest ih =>
    obtain ⟨b2, h2, hb2⟩ := sysStep_unhealthy_persist h hb op
    exact ih h2 hb2

/-- C8: `AddBackend` creates its backend healthy; once a backend is
unhealthy, no sequence of system operations (registrations, selections,
counter updates, proxy-error demotions) ever sets it healthy again, and no
future `GetBackend` call can return it. -/
theorem claimC8 (lb : LoadBalancer) (url : String) (w : Int) (ops : List SysOp)
    (i : Nat) (b : Backend) (h : lb.backends[i]? = some b)
    (hb : b.Healthy = false) :
    (AddBackend lb url w).backends.getLast? = some
      { URL := url, Weight := w, ActiveRequests := 0, TotalRequests := 0,
        LastRequestTime := 0, Healthy := true } ∧
    ∃ b2, (sysRun lb ops).backends[i]? = some b2 ∧ b2.Healthy = false ∧
      ∀ clientIP rnd r, (GetBackend (sysRun lb ops) clientIP rnd).1 = some r →
        r ≠ b2 := by
  constructor
  · show (lb.backends ++ [_]).getLast? = _
    simp
  · obtain ⟨b2, h2, hh2⟩ := sysRun_unhealthy_persist ops h hb
    refine ⟨b2, h2, hh2, ?_⟩
    intro clientIP rnd r hr heq
    have hmem := GetBackend_fst_mem hr
    have htrue := (mem_getHealthyBackends hmem).2
    rw [heq, hh2] at htrue
    exact absurd htrue (by decide)

/-- Witness for C8 at a concrete two-backend balancer (second backend
unhealthy) and a four-operation run ending in a proxy failure. -/
theorem claimC8_witness :
    lbMix.backends[1]? = some (MarkUnhealthy bZero) ∧
    ((AddBackend lbMix "http://b9:8080" 2).backends.getLast? = some bFresh ∧
     ∃ b2, (sysRun lbMix [SysOp.select [] 0, SysOp.inc 0 5,
         SysOp.add "http://b9:8080" 2, SysOp.fail 0]).backends[1]? = some b2 ∧
       b2.Healthy = false ∧
       ∀ clientIP rnd r,
         (GetBackend (sysRun lbMix [SysOp.select [] 0, SysOp.inc 0 5,
           SysOp.add "http://b9:8080" 2, SysOp.fail 0]) clientIP rnd).1 = some r →
         r ≠ b2) :=
  ⟨by decide,
   claimC8 lbMix "http://b9:8080" 2
     [SysOp.select [] 0, SysOp.inc 0 5, SysOp.add "http://b9:8080" 2, SysOp.fail 0]
     1 (MarkUnhealthy bZero) (by decide) (by decide)⟩

/-! ### Counting residues in an interval -/

lemma mod_shift_eq {K i r : Nat} (hK : 0 < K) (hi : i < K) (hr : r < K) :
    ((r + (K - 1 - i)) % K = K - 1) ↔ r = i := by
  by_cases hc : r + (K - 1 - i) < K
  · rw [Nat.mod_eq_of_lt hc]
    omega
  · have h1 : r + (K - 1 - i) - K < K := by omega
    rw [Nat.mod_eq_sub_mod (by omega), Nat.mod_eq_of_lt h1]
    omega

lemma mod_shift_iff (y K i : Nat) (hK : 0 < K) (hi : i < K) :
    ((y + (K - 1 - i)) % K = K - 1) ↔ y % K = i := by
  have hd := Nat.div_add_mod y K
  have h2 : y + (K - 1 - i) = y % K + (K - 1 - i) + K * (y / K) := by omega
  rw [h2, Nat.add_mul_mod_self_left]
  exact mod_shift_eq hK hi (Nat.mod_lt _ hK)

/-- Exact count of the hits of residue `i` among `s, s+1, …, s+N-1`
modulo `K`, phrased without truncated subtraction. -/
lemma card_mod_eq_range (s K i : Nat) (hK : 0 < K) (hi : i < K) (N : Nat) :
    ((Finset.range N).filter (fun t => (s + t) % K = i)).card +
      (s + (K - 1 - i)) / K = (s + N + (K - 1 - i)) / K := by
  induction N with
  | zero => simp
  | succ n ih =>
    rw [Finset.range_succ, Finset.filter_insert]
    have hrw : s + (n + 1) + (K - 1 - i) = s + n + (K - 1 - i) + 1 := by omega
    by_cases hp : (s + n) % K = i
    · rw [if_pos hp, Finset.card_insert_of_not_mem (by simp)]
      have hx : (s + n + (K - 1 - i)) % K = K - 1 :=
        (mod_shift_iff (s + n) K i hK hi).mpr hp
      have hxx := Nat.div_add_mod (s + n + (K - 1 - i)) K
      have hexp : K * ((s + n + (K - 1 - i)) / K + 1) =
          K * ((s + n + (K - 1 - i)) / K) + K := by ring
      have hmul : s + n + (K - 1 - i) + 1 =
          K * ((s + n + (K - 1 - i)) / K + 1) := by omega
      have hstep : (s + n + (K - 1 - i) + 1) / K =
          (s + n + (K - 1 - i)) / K + 1 := by
        rw [hmul, Nat.mul_div_cancel_left _ hK]
      rw [hrw, hstep]
      omega
    · rw [if_neg hp]
      have hx : ¬ (s + n + (K - 1 - i)) % K = K - 1 :=
        fun hc => hp ((mod_shift_iff (s + n) K i hK hi).mp hc)
      have hxx := Nat.div_add_mod (s + n + (K - 1 - i)) K
      have hmod : (s + n + (K - 1 - i)) % K < K := Nat.mod_lt _ hK
      have h2 : s + n + (K - 1 - i) + 1 =
          (s + n + (K - 1 - i)) % K + 1 + K * ((s + n + (K - 1 - i)) / K) := by
        omega
      have hstep : (s + n + (K - 1 - i) + 1) / K =
          (s + n + (K - 1 - i)) / K := by
        rw [h2, Nat.add_mul_div_left _ _ hK, Nat.div_eq_of_lt (by omega)]
        omega
      rw [hrw, hstep]
      omega

/-- Over any `N` consecutive values, each residue class modulo `K` is hit
either `⌊N/K⌋` or `⌈N/K⌉` times. -/
lemma card_mod_range_floor_ceil (s K i N : Nat) (hK : 0 < K) (hi : i < K) :
    ((Finset.range N).filter (fun t => (s + t) % K = i)).card = N / K ∨
    ((Finset.range N).filter (fun t => (s + t) % K = i)).card =
      (N + K - 1) / K := by
  have h1 := card_mod_eq_range s K i hK hi N
  have hq := Nat.div_add_mod (s + (K - 1 - i)) K
  have hQ := Nat.div_add_mod N K
  have hmod1 : (s + (K - 1 - i)) % K < K := Nat.mod_lt _ hK
  have hmod2 : N % K < K := Nat.mod_lt _ hK
  have hexp : K * ((s + (K - 1 - i)) / K + N / K) =
      K * ((s + (K - 1 - i)) / K) + K * (N / K) := by ring
  have hdec : s + N + (K - 1 - i) =
      (s + (K - 1 - i)) % K + N % K +
        K * ((s + (K - 1 - i)) / K + N / K) := by omega
  have hsplit : (s + N + (K - 1 - i)) / K =
      ((s + (K - 1 - i)) % K + N % K) / K +
        ((s + (K - 1 - i)) / K + N / K) := by
    rw [hdec, Nat.add_mul_div_left _ _ hK]
  have hdle : ((s + (K - 1 - i)) % K + N % K) / K ≤ 1 := by
    have h2K : (s + (K - 1 - i)) % K + N % K < 2 * K := by omega
    have := (Nat.div_lt_iff_lt_mul hK).mpr h2K
    omega
  by_cases hd : ((s + (K - 1 - i)) % K + N % K) / K = 0
  · left
    omega
  · right
    have hd1 : ((s + (K - 1 - i)) % K + N % K) / K = 1 :=
      Nat.le_antisymm hdle (Nat.pos_of_ne_zero hd)
    have hNK : N % K ≠ 0 := by
      intro h0
      rw [h0, Nat.add_zero, Nat.div_eq_of_lt hmod1] at hd1
      omega
    have hexp2 : K * (N / K + 1) = K * (N / K) + K := by ring
    have hceq : N + K - 1 = N % K - 1 + K * (N / K + 1) := by omega
    have hceil : (N + K - 1) / K = N / K + 1 := by
      rw [hceq, Nat.add_mul_div_left _ _ hK, Nat.div_eq_of_lt (by omega)]
      omega
    omega

/-! ### Consecutive round-robin calls -/

lemma GetBackend_rr (lb : LoadBalancer) (hs : lb.strategy = .RoundRobin)
    (hne : ¬ (getHealthyBackends lb).length = 0) (clientIP : List Nat) (rnd : Nat) :
    GetBackend lb clientIP rnd =
      ((getHealthyBackends lb)[lb.roundRobinIndex % (getHealthyBackends lb).length]?,
       { lb with roundRobinIndex := lb.roundRobinIndex + 1 }) := by
  have h0 : GetBackend lb clientIP rnd =
      roundRobinSelect lb (getHealthyBackends lb) := by
    simp only [GetBackend, hs]
    rw [if_neg hne]
  rw [h0, roundRobinSelect_spec hne]

lemma rr_stepN {lb : LoadBalancer} (hs : lb.strategy = .RoundRobin)
    (hne : ¬ (getHealthyBackends lb).length = 0) (clientIP : List Nat) (rnd : Nat) :
    ∀ n, stepN lb clientIP rnd n =
      { lb with roundRobinIndex := lb.roundRobinIndex + n } := by
  intro n
  induction n with
  | zero => rfl
  | succ n ih =>
    show (GetBackend (stepN lb clientIP rnd n) clientIP rnd).2 = _
    rw [ih]
    have h2 := GetBackend_rr { lb with roundRobinIndex := lb.roundRobinIndex + n }
      hs hne clientIP rnd
    rw [h2]
    rfl

lemma rr_selAt {lb : LoadBalancer} (hs : lb.strategy = .RoundRobin)
    (hne : ¬ (getHealthyBackends lb).length = 0) (clientIP : List Nat) (rnd : Nat)
    (t : Nat) :
    selAt lb clientIP rnd t =
      (getHealthyBackends lb)[(lb.roundRobinIndex + t) %
        (getHealthyBackends lb).length]? := by
  show (GetBackend (stepN lb clientIP rnd t) clientIP rnd).1 = _
  rw [rr_stepN hs hne clientIP rnd t]
  have h2 := GetBackend_rr { lb with roundRobinIndex := lb.roundRobinIndex + t }
    hs hne clientIP rnd
  rw [h2]
  rfl

lemma getElem?_eq_some_getElem_iff {bs : List Backend} (hnd : bs.Nodup)
    {m i : Nat} (hm : m < bs.length) (hi : i < bs.length) :
    (bs[m]? = some bs[i]) ↔ m = i := by
  rw [List.getElem?_eq_getElem hm]
  constructor
  · intro h
    exact (List.Nodup.getElem_inj_iff hnd).mp (Option.some.inj h)
  · rintro rfl
    rfl

/-- C2: under Round Robin with a fixed healthy subset of size `K` and an
arbitrary starting cursor, the cursor grows by exactly one per call, and
over `N` consecutive calls each backend is selected `⌊N/K⌋` or `⌈N/K⌉`
times. -/
theorem claimC2 (lb : LoadBalancer) (clientIP : List Nat) (rnd : Nat) (N : Nat)
    (hs : lb.strategy = .RoundRobin)
    (hne : getHealthyBackends lb ≠ [])
    (hnd : (getHealthyBackends lb).Nodup) :
    (∀ t, (stepN lb clientIP rnd (t + 1)).roundRobinIndex =
      (stepN lb clientIP rnd t).roundRobinIndex + 1) ∧
    ∀ i, ∀ hi : i < (getHealthyBackends lb).length,
      ((Finset.range N).filter (fun t => selAt lb clientIP rnd t =
          some (getHealthyBackends lb)[i])).card =
        N / (getHealthyBackends lb).length ∨
      ((Finset.range N).filter (fun t => selAt lb clientIP rnd t =
          some (getHealthyBackends lb)[i])).card =
        (N + (getHealthyBackends lb).length - 1) /
          (getHealthyBackends lb).length := by
  have hlen : ¬ (getHealthyBackends lb).length = 0 :=
    fun h => hne (List.length_eq_zero.mp h)
  have hK : 0 < (getHealthyBackends lb).length := Nat.pos_of_ne_zero hlen
  constructor
  · intro t
    rw [rr_stepN hs hlen clientIP rnd (t + 1), rr_stepN hs hlen clientIP rnd t]
    rfl
  · intro i hi
    have hcongr : (Finset.range N).filter (fun t => selAt lb clientIP rnd t =
          some (getHealthyBackends lb)[i]) =
        (Finset.range N).filter (fun t =>
          (lb.roundRobinIndex + t) % (getHealthyBackends lb).length = i) := by
      apply Finset.filter_congr
      intro t ht
      rw [rr_selAt hs hlen clientIP rnd t]
      exact getElem?_eq_some_getElem_iff hnd (Nat.mod_lt _ hK) hi
    rw [hcongr]
    exact card_mod_range_floor_ceil lb.roundRobinIndex _ i N hK hi

/-- Witness for C2: three backends, cursor 5, seven calls; the cursor
advances by one on the third call and the middle backend is hit
`⌊7/3⌋` or `⌈7/3⌉` times. -/
theorem claimC2_witness :
    (stepN lb3 [] 0 3).roundRobinIndex = (stepN lb3 [] 0 2).roundRobinIndex + 1 ∧
    (((Finset.range 7).filter (fun t => selAt lb3 [] 0 t =
        some ((getHealthyBackends lb3).get ⟨1, by decide⟩))).card = 7 / 3 ∨
     ((Finset.range 7).filter (fun t => selAt lb3 [] 0 t =
        some ((getHealthyBackends lb3).get ⟨1, by decide⟩))).card = (7 + 3 - 1) / 3) :=
  ⟨(claimC2 lb3 [] 0 7 (by decide) (by decide) (by decide)).1 2,
   (claimC2 lb3 [] 0 7 (by decide) (by decide) (by decide)).2 1 (by decide)⟩

/-! ### Consecutive weighted-round-robin calls -/

lemma GetBackend_wrr (lb : LoadBalancer) (hs : lb.strategy = .WeightedRoundRobin)
    (hne : ¬ (getHealthyBackends lb).length = 0)
    (hpos : 0 < totalWeightOf (getHealthyBackends lb))
    (clientIP : List Nat) (rnd : Nat) :
    GetBackend lb clientIP rnd =
      (wrrWalk (getHealthyBackends lb)
        (((lb.weightedIndex + 1) %
          (totalWeightOf (getHealthyBackends lb)).natAbs : Nat) : Int) 0,
       { lb with weightedIndex := (lb.weightedIndex + 1) %
          (totalWeightOf (getHealthyBackends lb)).natAbs }) := by
  have h0 : GetBackend lb clientIP rnd =
      weightedRoundRobinSelect lb (getHealthyBackends lb) := by
    simp only [GetBackend, hs]
    rw [if_neg hne]
  rw [h0, weightedRoundRobinSelect_pos_eq hne hpos]

lemma wrr_stepN (lb : LoadBalancer) (hs : lb.strategy = .WeightedRoundRobin)
    (hne : ¬ (getHealthyBackends lb).length = 0)
    (hpos : 0 < totalWeightOf (getHealthyBackends lb))
    (clientIP : List Nat) (rnd : Nat) :
    ∀ n, stepN lb clientIP rnd (n + 1) =
      { lb with weightedIndex := (lb.weightedIndex + (n + 1)) %
          (totalWeightOf (getHealthyBackends lb)).natAbs } := by
  intro n
  induction n with
  | zero =>
    show (GetBackend lb clientIP rnd).2 = _
    rw [GetBackend_wrr lb hs hne hpos clientIP rnd]
  | succ n ih =>
    show (GetBackend (stepN lb clientIP rnd (n + 1)) clientIP rnd).2 = _
    rw [ih]
    have h2 := GetBackend_wrr
      { lb with weightedIndex := (lb.weightedIndex + (n + 1)) %
          (totalWeightOf (getHealthyBackends lb)).natAbs }
      hs hne hpos clientIP rnd
    rw [h2]
    show ({ lb with weightedIndex :=
        ((lb.weightedIndex + (n + 1)) %
          (totalWeightOf (getHealthyBackends lb)).natAbs + 1) %
          (totalWeightOf (getHealthyBackends lb)).natAbs } : LoadBalancer) = _
    rw [Nat.mod_add_mod]
    rfl

lemma wrr_selAt (lb : LoadBalancer) (hs : lb.strategy = .WeightedRoundRobin)
    (hne : ¬ (getHealthyBackends lb).length = 0)
    (hpos : 0 < totalWeightOf (getHealthyBackends lb))
    (clientIP : List Nat) (rnd : Nat) (t : Nat) :
    selAt lb clientIP rnd t =
      wrrWalk (getHealthyBackends lb)
        (((lb.weightedIndex + 1 + t) %
          (totalWeightOf (getHealthyBackends lb)).natAbs : Nat) : Int) 0 := by
  cases t with
  | zero =>
    show (GetBackend lb clientIP rnd).1 = _
    rw [GetBackend_wrr lb hs hne hpos clientIP rnd]
  | succ n =>
    show (GetBackend (stepN lb clientIP rnd (n + 1)) clientIP rnd).1 = _
    rw [wrr_stepN lb hs hne hpos clientIP rnd n]
    have h2 := GetBackend_wrr
      { lb with weightedIndex := (lb.weightedIndex + (n + 1)) %
          (totalWeightOf (getHealthyBackends lb)).natAbs }
      hs hne hpos clientIP rnd
    rw [h2]
    show wrrWalk (getHealthyBackends lb)
        ((((lb.weightedIndex + (n + 1)) %
          (totalWeightOf (getHealthyBackends lb)).natAbs + 1) %
          (totalWeightOf (getHealthyBackends lb)).natAbs : Nat) : Int) 0 = _
    rw [Nat.mod_add_mod]
    have h3 : lb.weightedIndex + (n + 1) + 1 = lb.weightedIndex + 1 + (n + 1) := by
      omega
    rw [h3]

/-! ### Counting weighted-round-robin selections -/

lemma totalWeightOf_weightUpTo (bs : List Backend) :
    weightUpTo bs bs.length = totalWeightOf bs :=
  weightUpTo_length bs

lemma weightUpTo_le_of_le {bs : List Backend}
    (hw : ∀ b ∈ bs, 0 ≤ b.Weight) {m k : Nat} (hmk : m ≤ k)
    (hk : k ≤ bs.length) : weightUpTo bs m ≤ weightUpTo bs k := by
  induction k with
  | zero =>
    have : m = 0 := by omega
    subst this
    exact le_refl _
  | succ k2 ih =>
    rcases Nat.lt_or_ge m (k2 + 1) with hm | hm
    · have hk2 : k2 < bs.length := by omega
      have hstep := weightUpTo_succ_getElem bs k2 hk2
      have hwk : 0 ≤ bs[k2].Weight := hw _ (List.getElem_mem hk2)
      have := ih (by omega) (by omega)
      omega
    · have : m = k2 + 1 := by omega
      subst this
      exact le_refl _

/-- With distinct backends, the walk at cursor `j` selects position `i`
exactly when `j` lies in the weight-prefix bucket of `i`. -/
lemma wrrWalk_eq_getElem_iff {bs : List Backend} (hnd : bs.Nodup)
    (hw : ∀ b ∈ bs, 0 ≤ b.Weight) {i : Nat} (hi : i < bs.length) {j : Int}
    (hj : 0 ≤ j) :
    wrrWalk bs j 0 = some bs[i] ↔
      (weightUpTo bs i ≤ j ∧ j < weightUpTo bs (i + 1)) := by
  constructor
  · intro h
    obtain ⟨i2, hi2, hbi, hlo, hhi⟩ := wrrWalk_interval hj h
    have heq : i2 = i := (List.Nodup.getElem_inj_iff hnd).mp hbi
    subst heq
    exact ⟨by simpa using hlo, by simpa using hhi⟩
  · rintro ⟨hlo, hhi⟩
    exact wrrWalk_of_interval hi hw (by simpa using hlo) (by simpa using hhi)

/-- Shifting by a constant and reducing modulo `n` permutes `0, …, n-1`,
so it does not change how many elements of `Finset.range n` satisfy a
predicate. -/
lemma card_filter_range_mod_shift (n c : Nat) (hn : 0 < n) (p : Nat → Prop)
    [DecidablePred p] :
    ((Finset.range n).filter (fun t => p ((c + t) % n))).card =
      ((Finset.range n).filter p).card := by
  have hsingle : ∀ j, j < n →
      ((Finset.range n).filter (fun t => (c + t) % n = j)).card = 1 := by
    intro j hj
    rcases card_mod_range_floor_ceil c n j n hn hj with h | h
    · rw [h, Nat.div_self hn]
    · rw [h]
      have h2 : n + n - 1 = (n - 1) + n := by omega
      rw [h2, Nat.add_div_right _ hn, Nat.div_eq_of_lt (by omega)]
  have hdecomp : (Finset.range n).filter (fun t => p ((c + t) % n)) =
      ((Finset.range n).filter p).biUnion
        (fun j => (Finset.range n).filter (fun t => (c + t) % n = j)) := by
    ext t
    simp only [Finset.mem_filter, Finset.mem_range, Finset.mem_biUnion]
    constructor
    · rintro ⟨ht, hp⟩
      exact ⟨(c + t) % n, ⟨Nat.mod_lt _ hn, hp⟩, ht, rfl⟩
    · rintro ⟨j, ⟨hj, hp⟩, ht, hmod⟩
      exact ⟨ht, by rwa [hmod]⟩
  have hdisj : ∀ a ∈ (Finset.range n).filter p, ∀ b ∈ (Finset.range n).filter p,
      a ≠ b → Disjoint ((Finset.range n).filter (fun t => (c + t) % n = a))
        ((Finset.range n).filter (fun t => (c + t) % n = b)) := by
    intro a ha b hb hab
    rw [Finset.disjoint_left]
    intro t hta htb
    have h1 := (Finset.mem_filter.mp hta).2
    have h2 := (Finset.mem_filter.mp htb).2
    exact hab (h1 ▸ h2 ▸ rfl)
  rw [hdecomp, Finset.card_biUnion hdisj]
  calc ∑ j in (Finset.range n).filter p,
      ((Finset.range n).filter (fun t => (c + t) % n = j)).card
      = ∑ j in (Finset.range n).filter p, 1 := by
        apply Finset.sum_congr rfl
        intro j hj
        exact hsingle j (Finset.mem_range.mp (Finset.mem_filter.mp hj).1)
    _ = ((Finset.range n).filter p).card := by simp

/-- Variant of the shift count with the shifted predicate given
pointwise. -/
lemma card_filter_range_mod_shift2 (n c : Nat) (hn : 0 < n)
    (p q : Nat → Prop) [DecidablePred p] [DecidablePred q]
    (h : ∀ t, t < n → (q t ↔ p ((c + t) % n))) :
    ((Finset.range n).filter q).card = ((Finset.range n).filter p).card := by
  rw [Finset.filter_congr (fun t ht => h t (Finset.mem_range.mp ht))]
  exact card_filter_range_mod_shift n c hn p

/-- C1: under Weighted Round Robin over a fixed healthy subset with
non-negative weights and positive total weight, any `totalWeight`
consecutive calls select backend `i` exactly `weight i` times, whatever
the starting cursor. -/
theorem claimC1 (lb : LoadBalancer) (clientIP : List Nat) (rnd : Nat)
    (hs : lb.strategy = .WeightedRoundRobin)
    (hne : getHealthyBackends lb ≠ [])
    (hnd : (getHealthyBackends lb).Nodup)
    (hw : ∀ b ∈ getHealthyBackends lb, 0 ≤ b.Weight)
    (hpos : 0 < totalWeightOf (getHealthyBackends lb)) :
    ∀ i, ∀ hi : i < (getHealthyBackends lb).length,
      ((((Finset.range (totalWeightOf (getHealthyBackends lb)).natAbs).filter
          (fun t => selAt lb clientIP rnd t =
            some (getHealthyBackends lb)[i])).card : Nat) : Int) =
        (getHealthyBackends lb)[i].Weight := by
  intro i hi
  have hlen : ¬ (getHealthyBackends lb).length = 0 :=
    fun h => hne (List.length_eq_zero.mp h)
  have hTpos : 0 < (totalWeightOf (getHealthyBackends lb)).natAbs := by omega
  have hAnn : 0 ≤ weightUpTo (getHealthyBackends lb) i :=
    weightUpTo_nonneg hw i
  have hsucc : weightUpTo (getHealthyBackends lb) (i + 1) =
      weightUpTo (getHealthyBackends lb) i + (getHealthyBackends lb)[i].Weight :=
    weightUpTo_succ_getElem _ i hi
  have hwi : 0 ≤ (getHealthyBackends lb)[i].Weight := hw _ (List.getElem_mem hi)
  have hBle : weightUpTo (getHealthyBackends lb) (i + 1) ≤
      totalWeightOf (getHealthyBackends lb) := by
    rw [← totalWeightOf_weightUpTo]
    exact weightUpTo_le_of_le hw (by omega) (le_refl _)
  have hTcast : ((((totalWeightOf (getHealthyBackends lb)).natAbs : Nat)) : Int) =
      totalWeightOf (getHealthyBackends lb) :=
    Int.natAbs_of_nonneg (le_of_lt hpos)
  have hshift := card_filter_range_mod_shift2
    (totalWeightOf (getHealthyBackends lb)).natAbs (lb.weightedIndex + 1) hTpos
    (fun j => wrrWalk (getHealthyBackends lb) ((j : Nat) : Int) 0 =
      some (getHealthyBackends lb)[i])
    (fun t => selAt lb clientIP rnd t = some (getHealthyBackends lb)[i])
    (fun t ht => by
      show selAt lb clientIP rnd t = some (getHealthyBackends lb)[i] ↔
        wrrWalk (getHealthyBackends lb)
          (((lb.weightedIndex + 1 + t) %
            (totalWeightOf (getHealthyBackends lb)).natAbs : Nat) : Int) 0 =
          some (getHealthyBackends lb)[i]
      rw [wrr_selAt lb hs hlen hpos clientIP rnd t])
  have hbucket : (Finset.range (totalWeightOf (getHealthyBackends lb)).natAbs).filter
        (fun j => wrrWalk (getHealthyBackends lb) ((j : Nat) : Int) 0 =
          some (getHealthyBackends lb)[i]) =
      Finset.Ico (weightUpTo (getHealthyBackends lb) i).toNat
        (weightUpTo (getHealthyBackends lb) (i + 1)).toNat := by
    ext j
    simp only [Finset.mem_filter, Finset.mem_range, Finset.mem_Ico]
    constructor
    · rintro ⟨hjn, hp⟩
      obtain ⟨hlo, hhi2⟩ :=
        (wrrWalk_eq_getElem_iff hnd hw hi (Int.ofNat_nonneg j)).mp hp
      exact ⟨Int.toNat_le.mpr hlo, Int.lt_toNat.mpr hhi2⟩
    · rintro ⟨hlo, hhi2⟩
      have hjInt1 : weightUpTo (getHealthyBackends lb) i ≤ (j : Int) :=
        Int.toNat_le.mp hlo
      have hjInt2 : (j : Int) < weightUpTo (getHealthyBackends lb) (i + 1) :=
        Int.lt_toNat.mp hhi2
      refine ⟨?_, (wrrWalk_eq_getElem_iff hnd hw hi
        (Int.ofNat_nonneg j)).mpr ⟨hjInt1, hjInt2⟩⟩
      have hjT : (j : Int) <
          (((totalWeightOf (getHealthyBackends lb)).natAbs : Nat) : Int) := by
        rw [hTcast]
        exact lt_of_lt_of_le hjInt2 hBle
      exact_mod_cast hjT
  have hcard : ((Finset.range (totalWeightOf (getHealthyBackends lb)).natAbs).filter
        (fun t => selAt lb clientIP rnd t =
          some (getHealthyBackends lb)[i])).card =
      (weightUpTo (getHealthyBackends lb) (i + 1)).toNat -
        (weightUpTo (getHealthyBackends lb) i).toNat := by
    rw [hshift, hbucket, Nat.card_Ico]
  rw [hcard]
  omega

/-- Witness for C1: weights 1, 3, 2 (total 6) starting at cursor 4; over 6
consecutive calls the middle backend is selected exactly 3 times. -/
theorem claimC1_witness :
    ((((Finset.range (totalWeightOf (getHealthyBackends lbW132)).natAbs).filter
        (fun t => selAt lbW132 [] 0 t =
          some ((getHealthyBackends lbW132).get ⟨1, by decide⟩))).card : Nat) : Int) =
      ((getHealthyBackends lbW132).get ⟨1, by decide⟩).Weight :=
  claimC1 lbW132 [] 0 (by decide) (by decide) (by decide) (by decide) (by decide)
    1 (by decide)
